import Mathlib

/-
  Shallow embedding, over exact rational arithmetic, of the PRNet partial
  point-cloud registration code (src/model.py and src/main.py), together with
  proofs settling the frozen claims about its specification.

  Matrices are 3-by-3 rational matrices, vectors are functions Fin 3 → ℚ,
  batches are lists.  Floating-point tensors are modelled by rationals; the
  exponential inside torch.softmax is abstracted by an arbitrary strictly
  positive kernel where only its positivity matters.
-/

abbrev Mat3 := Matrix (Fin 3) (Fin 3) ℚ

abbrev Vec3 := Fin 3 → ℚ

/-! ## Cycle-consistency loss (model.py, cycle_consistency, lines 79-82)

    F.mse_loss(X, Y) is the mean of the squared entrywise differences; for a
    batch of b examples of 3x3 matrices this divides by 9*b, for 3-vectors by
    3*b.  cycle_consistency returns
    mse(R_ab @ R_ba, I) + mse(t_ab, -t_ba). -/

/-- Sum of squared entrywise differences of two 3-by-3 matrices. -/
def sq3 (A B : Mat3) : ℚ := ∑ i, ∑ j, (A i j - B i j) ^ 2

/-- Sum of squared entrywise differences of two 3-vectors. -/
def sqV (a b : Vec3) : ℚ := ∑ i, (a i - b i) ^ 2

/-- Rotation part of the cycle-consistency loss: the mean squared deviation of
    the per-example products `rotation_ab @ rotation_ba` from the identity,
    over a batch given as two zipped lists. -/
def ccRot (Rab Rba : List Mat3) : ℚ :=
  (((Rab.zip Rba).map (fun p => sq3 (p.1 * p.2) 1)).sum) / (9 * (Rab.zip Rba).length)

/-- Translation part of the cycle-consistency loss: the mean squared deviation
    of `translation_ab` from `-translation_ba` over the batch. -/
def ccTrans (tab tba : List Vec3) : ℚ :=
  (((tab.zip tba).map (fun p => sqV p.1 (-p.2))).sum) / (3 * (tab.zip tba).length)

/-- model.py `cycle_consistency`: mse_loss(matmul(rotation_ab, rotation_ba),
    identity) + mse_loss(translation_ab, -translation_ba). -/
def cycle_consistency (Rab : List Mat3) (tab : List Vec3)
    (Rba : List Mat3) (tba : List Vec3) : ℚ :=
  ccRot Rab Rba + ccTrans tab tba

theorem sq3_nonneg (A B : Mat3) : 0 ≤ sq3 A B := by
  apply Finset.sum_nonneg
  intro i _
  apply Finset.sum_nonneg
  intro j _
  positivity

theorem sqV_nonneg (a b : Vec3) : 0 ≤ sqV a b := by
  apply Finset.sum_nonneg
  intro i _
  positivity

theorem sq3_eq_zero_iff (A B : Mat3) : sq3 A B = 0 ↔ A = B := by
  constructor
  · intro h
    ext i j
    have h1 := (Finset.sum_eq_zero_iff_of_nonneg
      (fun i _ => Finset.sum_nonneg (fun j _ => by positivity))).1 h
    have h2 := (Finset.sum_eq_zero_iff_of_nonneg (fun j _ => by positivity)).1
      (h1 i (Finset.mem_univ i))
    have h3 := h2 j (Finset.mem_univ j)
    have h4 : A i j - B i j = 0 := by
      have := sq_eq_zero_iff.mp h3
      exact this
    linarith
  · intro h
    subst h
    simp [sq3]

theorem sqV_eq_zero_iff (a b : Vec3) : sqV a b = 0 ↔ a = b := by
  constructor
  · intro h
    funext i
    have h1 := (Finset.sum_eq_zero_iff_of_nonneg (fun i _ => by positivity)).1 h
    have h2 := h1 i (Finset.mem_univ i)
    have h3 : a i - b i = 0 := sq_eq_zero_iff.mp h2
    linarith
  · intro h
    subst h
    simp [sqV]

theorem listSum_eq_zero_iff {l : List ℚ} (h : ∀ x ∈ l, 0 ≤ x) :
    l.sum = 0 ↔ ∀ x ∈ l, x = 0 := by
  induction l with
  | nil => simp
  | cons a t ih =>
    simp only [List.sum_cons, List.mem_cons]
    constructor
    · intro h0
      have ha : 0 ≤ a := h a (List.mem_cons_self a t)
      have ht : 0 ≤ t.sum := List.sum_nonneg (fun x hx => h x (List.mem_cons_of_mem a hx))
      have ha0 : a = 0 := le_antisymm (by linarith) ha
      have ht0 : t.sum = 0 := by linarith
      have := (ih (fun x hx => h x (List.mem_cons_of_mem a hx))).1 ht0
      intro x hx
      rcases hx with hx | hx
      · rw [hx]; exact ha0
      · exact this x hx
    · intro hall
      have ha0 : a = 0 := hall a (Or.inl rfl)
      have ht0 : t.sum = 0 := (ih (fun x hx => h x (List.mem_cons_of_mem a hx))).2
        (fun x hx => hall x (Or.inr hx))
      rw [ha0, ht0, add_zero]

theorem ccRot_nonneg (Rab Rba : List Mat3) : 0 ≤ ccRot Rab Rba := by
  unfold ccRot
  apply div_nonneg
  · apply List.sum_nonneg
    intro x hx
    rcases List.mem_map.mp hx with ⟨p, _, hp⟩
    rw [← hp]
    exact sq3_nonneg _ _
  · positivity

theorem ccTrans_nonneg (tab tba : List Vec3) : 0 ≤ ccTrans tab tba := by
  unfold ccTrans
  apply div_nonneg
  · apply List.sum_nonneg
    intro x hx
    rcases List.mem_map.mp hx with ⟨p, _, hp⟩
    rw [← hp]
    exact sqV_nonneg _ _
  · positivity

theorem ccRot_eq_zero_iff (Rab Rba : List Mat3) :
    ccRot Rab Rba = 0 ↔ ∀ p ∈ Rab.zip Rba, p.1 * p.2 = 1 := by
  unfold ccRot
  rcases eq_or_ne (Rab.zip Rba) [] with h | h
  · simp [h]
  · have hlen : 0 < (Rab.zip Rba).length := List.length_pos.mpr h
    have hden : (9 * ((Rab.zip Rba).length : ℚ)) ≠ 0 := by positivity
    rw [div_eq_zero_iff]
    constructor
    · intro hc
      rcases hc with hc | hc
      · intro p hp
        have hz := (listSum_eq_zero_iff (fun x hx => by
          rcases List.mem_map.mp hx with ⟨q, _, hq⟩
          rw [← hq]; exact sq3_nonneg _ _)).1 hc
        have : sq3 (p.1 * p.2) 1 = 0 :=
          hz _ (List.mem_map.mpr ⟨p, hp, rfl⟩)
        exact (sq3_eq_zero_iff _ _).1 this
      · exact absurd hc hden
    · intro hall
      left
      apply List.sum_eq_zero
      intro x hx
      rcases List.mem_map.mp hx with ⟨p, hp, hq⟩
      rw [← hq, (sq3_eq_zero_iff _ _).2 (hall p hp)]

theorem ccTrans_eq_zero_iff (tab tba : List Vec3) :
    ccTrans tab tba = 0 ↔ ∀ p ∈ tab.zip tba, p.1 = -p.2 := by
  unfold ccTrans
  rcases eq_or_ne (tab.zip tba) [] with h | h
  · simp [h]
  · have hlen : 0 < (tab.zip tba).length := List.length_pos.mpr h
    have hden : (3 * ((tab.zip tba).length : ℚ)) ≠ 0 := by positivity
    rw [div_eq_zero_iff]
    constructor
    · intro hc
      rcases hc with hc | hc
      · intro p hp
        have hz := (listSum_eq_zero_iff (fun x hx => by
          rcases List.mem_map.mp hx with ⟨q, _, hq⟩
          rw [← hq]; exact sqV_nonneg _ _)).1 hc
        have : sqV p.1 (-p.2) = 0 :=
          hz _ (List.mem_map.mpr ⟨p, hp, rfl⟩)
        exact (sqV_eq_zero_iff _ _).1 this
      · exact absurd hc hden
    · intro hall
      left
      apply List.sum_eq_zero
      intro x hx
      rcases List.mem_map.mp hx with ⟨p, hp, hq⟩
      rw [← hq, (sqV_eq_zero_iff _ _).2 (hall p hp)]

/-- Concrete bidirectional estimate used to refute claim C2 as stated:
    a 90-degree rotation about the z axis for the B→A direction. -/
def cexRba : Mat3 := !![0, -1, 0; 1, 0, 0; 0, 0, 1]

/-- Transpose of `cexRba`, the A→B rotation of the counterexample. -/
def cexRab : Mat3 := !![0, 1, 0; -1, 0, 0; 0, 0, 1]

/-- Counterexample B→A translation. -/
def cexTba : Vec3 := ![1, 0, 0]

/-- Counterexample A→B translation, chosen as −R_ab · t_ba. -/
def cexTab : Vec3 := ![0, 1, 0]

/-- C2 counterexample: with R_ab = R_baᵀ and t_ab = −R_ab·t_ba (the exact
    condition of the claim), the cycle-consistency loss computed by the code is
    NOT zero — the code compares t_ab against −t_ba, not against −R_ab·t_ba. -/
theorem cycle_consistency_claim_cex :
    cexRab = cexRba.transpose ∧ cexTab = -(cexRab.mulVec cexTba) ∧
    cycle_consistency [cexRab] [cexTab] [cexRba] [cexTba] ≠ 0 := by
  refine ⟨by decide, ?_, ?_⟩
  · funext i
    fin_cases i <;>
      norm_num [cexTab, cexRab, cexTba, Matrix.mulVec, Matrix.dotProduct,
        Fin.sum_univ_three, Matrix.vecHead, Matrix.vecTail]
  · have hprod : cexRab * cexRba = 1 := by
      ext i j
      fin_cases i <;> fin_cases j <;>
        norm_num [cexRab, cexRba, Matrix.mul_apply, Fin.sum_univ_three,
          Matrix.vecHead, Matrix.vecTail, Matrix.one_apply, Fin.ext_iff]
    have hrot : ccRot [cexRab] [cexRba] = 0 := by
      simp [ccRot, hprod, sq3]
    have htr : ccTrans [cexTab] [cexTba] = 2 / 3 := by
      norm_num [ccTrans, sqV, cexTab, cexTba, Fin.sum_univ_three,
        Matrix.vecHead, Matrix.vecTail]
    intro h
    rw [cycle_consistency, hrot, htr] at h
    norm_num at h

/-- C2 (amended): the cycle-consistency loss is non-negative, and it is exactly
    zero precisely when, for every example of the batch,
    `rotation_ab * rotation_ba = I₃` and `translation_ab = -translation_ba`
    (for orthogonal estimates the former is equivalent to R_ab = R_baᵀ); it is
    strictly positive for every other constructed pair. -/
theorem cycle_consistency_zero_iff (Rab : List Mat3) (tab : List Vec3)
    (Rba : List Mat3) (tba : List Vec3) :
    0 ≤ cycle_consistency Rab tab Rba tba ∧
    (cycle_consistency Rab tab Rba tba = 0 ↔
      ((∀ p ∈ Rab.zip Rba, p.1 * p.2 = 1) ∧ (∀ q ∈ tab.zip tba, q.1 = -q.2))) := by
  have h1 := ccRot_nonneg Rab Rba
  have h2 := ccTrans_nonneg tab tba
  constructor
  · unfold cycle_consistency
    linarith
  · unfold cycle_consistency
    constructor
    · intro h
      have ha : ccRot Rab Rba = 0 := by linarith
      have hb : ccTrans tab tba = 0 := by linarith
      exact ⟨(ccRot_eq_zero_iff _ _).1 ha, (ccTrans_eq_zero_iff _ _).1 hb⟩
    · rintro ⟨ha, hb⟩
      rw [(ccRot_eq_zero_iff _ _).2 ha, (ccTrans_eq_zero_iff _ _).2 hb, add_zero]

/-! ## PRNet.predict (model.py, lines 495-507)

    The per-iteration forward pass of the network is abstracted as a function
    from the current working source cloud to an incremental (rotation,
    translation); the accumulator update and the re-transformation of the
    working cloud are translated from the loop body. -/

/-- Modelled from the spec: `transform_point_cloud` lives in the missing util
    module; per its contract it rotates then translates every point. -/
def transform_point_cloud (pts : List Vec3) (R : Mat3) (t : Vec3) : List Vec3 :=
  pts.map (fun p => R.mulVec p + t)

/-- Loop of PRNet.predict: state is (rotation accumulator, translation
    accumulator, working source cloud); each step left-composes the incremental
    rotation, updates the translation affinely and re-transforms the working
    cloud by the incremental transform only. -/
def predictLoop (forward : List Vec3 → Mat3 × Vec3) :
    ℕ → Mat3 × Vec3 × List Vec3 → Mat3 × Vec3 × List Vec3
  | 0, st => st
  | n + 1, st =>
    predictLoop forward n
      ((forward st.2.2).1 * st.1,
       (forward st.2.2).1.mulVec st.2.1 + (forward st.2.2).2,
       transform_point_cloud st.2.2 (forward st.2.2).1 (forward st.2.2).2)

/-- PRNet.predict: runs the loop from the identity rotation and zero
    translation and returns the composed transform. -/
def predict (forward : List Vec3 → Mat3 × Vec3) (src : List Vec3)
    (nIters : ℕ) : Mat3 × Vec3 :=
  ((predictLoop forward nIters (1, 0, src)).1,
   (predictLoop forward nIters (1, 0, src)).2.1)

/-- C4: PRNet.predict left-composes each incremental transform onto the
    accumulator, starting from (I₃, 0): one step sends (R_acc, t_acc) to
    (R_i·R_acc, R_i·t_acc + t_i) and re-transforms the working cloud by the
    increment; consequently a two-iteration run whose iterations yield
    (R₁,t₁) then (R₂,t₂) returns exactly (R₂·R₁, R₂·t₁ + t₂). -/
theorem predict_composes (forward : List Vec3 → Mat3 × Vec3) (src : List Vec3) :
    (∀ (Racc : Mat3) (tacc : Vec3) (pts : List Vec3),
      predictLoop forward 1 (Racc, tacc, pts) =
        ((forward pts).1 * Racc,
         (forward pts).1.mulVec tacc + (forward pts).2,
         transform_point_cloud pts (forward pts).1 (forward pts).2)) ∧
    predict forward src 2 =
      ((forward (transform_point_cloud src (forward src).1 (forward src).2)).1
         * (forward src).1,
       (forward (transform_point_cloud src (forward src).1 (forward src).2)).1.mulVec
           (forward src).2
         + (forward (transform_point_cloud src (forward src).1 (forward src).2)).2) := by
  constructor
  · intro Racc tacc pts
    simp [predictLoop]
  · simp [predict, predictLoop, Matrix.mulVec_zero, mul_one]

/-! ## Temperature network clamp (model.py, TemperatureNet.forward, lines 365-374)

    The MLP output passes a final ReLU and is then clamped:
    torch.clamp(self.nn(residual), 1.0/temp_factor, 1.0*temp_factor). -/

/-- torch.clamp(x, lo, hi) = min(max(x, lo), hi). -/
def clampT (x lo hi : ℚ) : ℚ := min (max x lo) hi

/-- ReLU on rationals. -/
def reluQ (x : ℚ) : ℚ := max x 0

/-- Final stage of TemperatureNet.forward: the last Linear layer's raw scalar
    output passes nn.ReLU() and is clamped into [1/temp_factor, temp_factor]. -/
def temperatureOut (tempFactor raw : ℚ) : ℚ :=
  clampT (reluQ raw) (1 / tempFactor) tempFactor

/-- C7: for every raw MLP output (hence for every pair of input embeddings,
    including the all-zero feature-disparity input) the temperature lies in the
    closed interval [1/temp_factor, temp_factor], provided temp_factor ≥ 1
    (default 100). -/
theorem temperature_bounded (tempFactor raw : ℚ) (h : 1 ≤ tempFactor) :
    1 / tempFactor ≤ temperatureOut tempFactor raw ∧
    temperatureOut tempFactor raw ≤ tempFactor := by
  have h0 : 0 < tempFactor := lt_of_lt_of_le one_pos h
  have hlh : 1 / tempFactor ≤ tempFactor := by
    have : 1 / tempFactor ≤ 1 := by
      rw [div_le_one h0]
      exact h
    linarith
  constructor
  · exact le_min (le_max_right _ _) hlh
  · exact min_le_right _ _

/-- Witness for C7 at temp_factor = 100 and a negative raw output. -/
theorem temperature_bounded_witness :
    (1 : ℚ) ≤ 100 ∧
    (1 / 100 ≤ temperatureOut 100 (-5) ∧ temperatureOut 100 (-5) ≤ 100) :=
  ⟨by norm_num, temperature_bounded 100 (-5) (by norm_num)⟩

/-! ## SVD head reflection correction (model.py, SVDHead.forward, lines 1147-1179)

    Both execution paths decompose the cross-covariance H = U·S·Vᵀ, form
    r = V·Uᵀ, and recombine r = V·diag(1,1,det r)·Uᵀ.  The factors U and V of a
    singular value decomposition are orthogonal; the correction is identical on
    the on-accelerator path and on the off-accelerator path (the latter only
    adds 1e-7·I to H before decomposing). -/

/-- The rotation produced by the SVD head from the orthogonal SVD factors u, v:
    r = v·uᵀ, then the Kabsch sign fix r = v·diag(1,1,det r)·uᵀ. -/
def kabschCorrect (u v : Mat3) : Mat3 :=
  v * Matrix.diagonal ![1, 1, (v * u.transpose).det] * u.transpose

/-- C3: for orthogonal SVD factors u and v — whatever the conditioning of the
    cross-covariance they decompose — the corrected matrix is a proper
    rotation: Rᵀ·R = I₃ and det R = 1, on either execution path. -/
theorem kabsch_rotation_proper (u v : Mat3)
    (hu : u.transpose * u = 1) (hv : v.transpose * v = 1) :
    (kabschCorrect u v).transpose * kabschCorrect u v = 1 ∧
    (kabschCorrect u v).det = 1 := by
  have huu : u * u.transpose = 1 := Matrix.mul_eq_one_comm.mp hu
  have hdu : u.det * u.det = 1 := by
    have := congrArg Matrix.det hu
    rwa [Matrix.det_mul, Matrix.det_transpose, Matrix.det_one] at this
  have hdv : v.det * v.det = 1 := by
    have := congrArg Matrix.det hv
    rwa [Matrix.det_mul, Matrix.det_transpose, Matrix.det_one] at this
  have hd : (v * u.transpose).det = v.det * u.det := by
    rw [Matrix.det_mul, Matrix.det_transpose]
  have hdd : (v * u.transpose).det * (v * u.transpose).det = 1 := by
    rw [hd]
    have : v.det * u.det * (v.det * u.det) = v.det * v.det * (u.det * u.det) := by ring
    rw [this, hdu, hdv, mul_one]
  have hone : (fun i => (![1, 1, (v * u.transpose).det]) i *
      (![1, 1, (v * u.transpose).det]) i) = fun _ => (1 : ℚ) := by
    funext i
    fin_cases i <;> simp [Matrix.vecHead, Matrix.vecTail, hdd] <;> nlinarith [hdu, hdv]
  have hDD : Matrix.diagonal ![1, 1, (v * u.transpose).det] *
      Matrix.diagonal ![1, 1, (v * u.transpose).det] = (1 : Mat3) := by
    rw [Matrix.diagonal_mul_diagonal, hone, Matrix.diagonal_one]
  constructor
  · have hcon1 : v.transpose * (v * (Matrix.diagonal ![1, 1, (v * u.transpose).det] *
        u.transpose)) = Matrix.diagonal ![1, 1, (v * u.transpose).det] * u.transpose := by
      rw [← mul_assoc, hv, one_mul]
    have hcon2 : Matrix.diagonal ![1, 1, (v * u.transpose).det] *
        (Matrix.diagonal ![1, 1, (v * u.transpose).det] * u.transpose) = u.transpose := by
      rw [← mul_assoc, hDD, one_mul]
    unfold kabschCorrect
    rw [Matrix.transpose_mul, Matrix.transpose_mul, Matrix.diagonal_transpose,
      Matrix.transpose_transpose]
    simp only [mul_assoc]
    rw [hcon1, hcon2, huu]
  · unfold kabschCorrect
    rw [Matrix.det_mul, Matrix.det_mul, Matrix.det_transpose, Matrix.det_diagonal]
    have hprod : (∏ i, (![1, 1, (v * u.transpose).det]) i) = (v * u.transpose).det := by
      rw [Fin.prod_univ_three]
      simp
    rw [hprod, hd]
    have : v.det * (v.det * u.det) * u.det = v.det * v.det * (u.det * u.det) := by ring
    rw [this, hdu, hdv, mul_one]

/-- Witness for C3 at the concrete orthogonal factors u = v = I₃. -/
theorem kabsch_rotation_proper_witness :
    ((1 : Mat3).transpose * 1 = 1) ∧
    ((kabschCorrect 1 1).transpose * kabschCorrect 1 1 = 1 ∧
     (kabschCorrect 1 1).det = 1) :=
  ⟨by simp, kabsch_rotation_proper 1 1 (by simp) (by simp)⟩

/-! ## SVD head degenerate-weight guard (model.py, SVDHead.forward, lines 1108-1142)

    weights = relu(tanh(logits)); then
      if torch.any(torch.sum(weights, dim=1) == 0.0):
          weights = weights + 1 / weights.shape[1]
    and the weighted centroids divide by torch.sum(weights, dim=1) + _EPS with
    _EPS = 1e-5.  The tanh pre-activation is modelled by an arbitrary rational
    input; only the sign behaviour of relu matters for the claims. -/

/-- Source constant _EPS = 1e-5. -/
def epsQ : ℚ := 1 / 100000

/-- Per-point weights of the SVD head: relu applied entrywise to the (tanh)
    pre-activations, one row per batch example. -/
def pointWeights (pre : List (List ℚ)) : List (List ℚ) :=
  pre.map (fun r => r.map reluQ)

/-- The fallback branch: weights + 1 / weights.shape[1] adds the uniform value
    to every entry of every example of the batch. -/
def addFallback (w : List (List ℚ)) : List (List ℚ) :=
  w.map (fun r => r.map (fun x => x + 1 / ((w.headD []).length : ℚ)))

/-- The degenerate guard: if any example's weight sum is exactly zero, the
    uniform fallback is added to the whole batch; otherwise the weights are
    returned unchanged. -/
def guardWeights (w : List (List ℚ)) : List (List ℚ) :=
  if w.any (fun r => decide (r.sum = 0)) then addFallback w else w

/-- Denominator of the weighted-centroid computation for one example:
    torch.sum(weights, dim=1) + _EPS. -/
def centroidDenom (r : List ℚ) : ℚ := r.sum + epsQ

theorem reluQ_nonneg (x : ℚ) : 0 ≤ reluQ x := le_max_right x 0

/-- C1 counterexample: in the batch with pre-activations [[-1,-1],[1,1]] the
    learned weights are [[0,0],[1,1]]; the second example's weight sum is
    nonzero, yet the guard changes its weights (the fallback is added to the
    whole batch, not only to the degenerate example). -/
theorem weight_guard_claim_cex :
    (pointWeights [[-1, -1], [1, 1]]).getD 1 [] = [1, 1] ∧
    ([1, 1] : List ℚ).sum ≠ 0 ∧
    (guardWeights (pointWeights [[-1, -1], [1, 1]])).getD 1 [] ≠ [1, 1] := by
  refine ⟨?_, by norm_num, ?_⟩
  · norm_num [pointWeights, reluQ]
  · have h : guardWeights (pointWeights [[-1, -1], [1, 1]]) =
        [[1/2, 1/2], [3/2, 3/2]] := by
      norm_num [guardWeights, pointWeights, addFallback, reluQ]
    rw [h]
    intro hc
    have := congrArg (fun l => l.getD 0 0) hc
    norm_num at this
  
/-- C1 (amended): whenever some example's learned weight sum is exactly zero,
    the uniform fallback 1/N is added to every weight of every example of the
    batch — including examples whose weight sum is nonzero — and the
    weighted-centroid denominator (weight sum + 1e-5) stays strictly positive
    for every example, so the computation never divides by zero. -/
theorem weight_guard_batchwide (pre : List (List ℚ))
    (h : ∃ r ∈ pointWeights pre, r.sum = 0) :
    guardWeights (pointWeights pre) = addFallback (pointWeights pre) ∧
    ∀ r ∈ guardWeights (pointWeights pre), 0 < centroidDenom r := by
  have hcond : (pointWeights pre).any (fun r => decide (r.sum = 0)) = true := by
    rcases h with ⟨r, hr, hs⟩
    exact List.any_eq_true.mpr ⟨r, hr, by simp [hs]⟩
  have hguard : guardWeights (pointWeights pre) = addFallback (pointWeights pre) := by
    unfold guardWeights
    rw [hcond]
    simp
  refine ⟨hguard, ?_⟩
  intro r hr
  rw [hguard] at hr
  rcases List.mem_map.mp hr with ⟨r0, hr0, hrec⟩
  rcases List.mem_map.mp hr0 with ⟨p0, _, hp0⟩
  have hnn : ∀ x ∈ r, 0 ≤ x := by
    intro x hx
    rw [← hrec] at hx
    rcases List.mem_map.mp hx with ⟨y, hy, hyx⟩
    rw [← hp0] at hy
    rcases List.mem_map.mp hy with ⟨z, _, hz⟩
    have h1 : 0 ≤ y := by rw [← hz]; exact reluQ_nonneg z
    have h2 : (0:ℚ) ≤ 1 / ((pointWeights pre).headD []).length := by positivity
    rw [← hyx]
    unfold addFallback at *
    positivity
  have hsum : 0 ≤ r.sum := List.sum_nonneg hnn
  unfold centroidDenom epsQ
  linarith

/-- Witness for C1 (amended) at the one-example, one-point batch with
    pre-activation -1 (so learned weight 0 and weight sum 0). -/
theorem weight_guard_batchwide_witness :
    (∃ r ∈ pointWeights [[-1]], r.sum = 0) ∧
    (guardWeights (pointWeights [[-1]]) = addFallback (pointWeights [[-1]]) ∧
     ∀ r ∈ guardWeights (pointWeights [[-1]]), 0 < centroidDenom r) :=
  ⟨⟨[0], by norm_num [pointWeights, reluQ]⟩,
   weight_guard_batchwide [[-1]] ⟨[0], by norm_num [pointWeights, reluQ]⟩⟩

/-! ## Best-checkpoint policy (main.py, train, lines 45-60)

    Per epoch: if info_test_best is None or info_test_best['loss'] >
    info_test['loss'], a "best" checkpoint is saved and the best record is
    replaced; a per-epoch checkpoint is saved unconditionally.  The state is
    the best test loss seen so far (None before the first epoch); the output
    records, per epoch, (best checkpoint saved?, per-epoch checkpoint saved?). -/

/-- The epoch loop of main.py train, reduced to its checkpoint decisions: the
    first component of each pair records a "best" save, the second the
    unconditional per-epoch save. -/
def trainSaves : List ℚ → Option ℚ → List (Bool × Bool)
  | [], _ => []
  | l :: ls, none => (true, true) :: trainSaves ls (some l)
  | l :: ls, some b =>
    if b > l then (true, true) :: trainSaves ls (some l)
    else (false, true) :: trainSaves ls (some b)

theorem trainSaves_aux (ls : List ℚ) : ∀ (b : ℚ) (i : ℕ),
    ((trainSaves ls (some b)).getD i (false, false)).1 = true ↔
      (i < ls.length ∧ ls.getD i 0 < b ∧ ∀ j, j < i → ls.getD i 0 < ls.getD j 0) := by
  induction ls with
  | nil =>
    intro b i
    simp [trainSaves]
  | cons l t ih =>
    intro b i
    cases i with
    | zero =>
      by_cases h : b > l
      · simp [trainSaves, if_pos h, h]
      · simp only [trainSaves, if_neg h]
        simp only [List.getD_cons_zero]
        constructor
        · intro hc
          exact absurd hc (by simp)
        · rintro ⟨-, hlb, -⟩
          exact absurd hlb (by exact not_lt.mpr (not_lt.mp h))
    | succ n =>
      by_cases h : b > l
      · simp only [trainSaves, if_pos h, List.getD_cons_succ, List.length_cons]
        rw [ih l n]
        constructor
        · rintro ⟨h1, h2, h3⟩
          refine ⟨by omega, lt_trans h2 h, ?_⟩
          intro j hj
          cases j with
          | zero => simpa using h2
          | succ m =>
            rw [List.getD_cons_succ]
            exact h3 m (by omega)
        · rintro ⟨h1, h2, h3⟩
          refine ⟨by omega, by simpa using h3 0 (by omega), ?_⟩
          intro j hj
          have := h3 (j + 1) (by omega)
          rwa [List.getD_cons_succ] at this
      · simp only [trainSaves, if_neg h, List.getD_cons_succ, List.length_cons]
        rw [ih b n]
        have hbl : b ≤ l := not_lt.mp h
        constructor
        · rintro ⟨h1, h2, h3⟩
          refine ⟨by omega, h2, ?_⟩
          intro j hj
          cases j with
          | zero => simpa using lt_of_lt_of_le h2 hbl
          | succ m =>
            rw [List.getD_cons_succ]
            exact h3 m (by omega)
        · rintro ⟨h1, h2, h3⟩
          refine ⟨by omega, h2, ?_⟩
          intro j hj
          have := h3 (j + 1) (by omega)
          rwa [List.getD_cons_succ] at this

theorem trainSaves_best_spec (ls : List ℚ) (i : ℕ) :
    ((trainSaves ls none).getD i (false, false)).1 = true ↔
      (i < ls.length ∧ ∀ j, j < i → ls.getD i 0 < ls.getD j 0) := by
  cases ls with
  | nil => simp [trainSaves]
  | cons l t =>
    cases i with
    | zero => simp [trainSaves]
    | succ n =>
      simp only [trainSaves, List.getD_cons_succ, List.length_cons]
      rw [trainSaves_aux t l n]
      constructor
      · rintro ⟨h1, h2, h3⟩
        refine ⟨by omega, ?_⟩
        intro j hj
        cases j with
        | zero => simpa using h2
        | succ m =>
          rw [List.getD_cons_succ]
          exact h3 m (by omega)
      · rintro ⟨h1, h3⟩
        refine ⟨by omega, by simpa using h3 0 (by omega), ?_⟩
        intro j hj
        have := h3 (j + 1) (by omega)
        rwa [List.getD_cons_succ] at this

theorem trainSaves_epoch_always (ls : List ℚ) :
    ∀ acc, ∀ p ∈ trainSaves ls acc, p.2 = true := by
  induction ls with
  | nil =>
    intro acc p hp
    simp [trainSaves] at hp
  | cons l t ih =>
    intro acc p hp
    cases acc with
    | none =>
      simp only [trainSaves, List.mem_cons] at hp
      rcases hp with hp | hp
      · rw [hp]
      · exact ih (some l) p hp
    | some b =>
      simp only [trainSaves] at hp
      by_cases h : b > l
      · rw [if_pos h] at hp
        rcases List.mem_cons.mp hp with hp | hp
        · rw [hp]
        · exact ih (some l) p hp
      · rw [if_neg h] at hp
        rcases List.mem_cons.mp hp with hp | hp
        · rw [hp]
        · exact ih (some b) p hp

/-- C6: the "best" checkpoint is saved exactly at the epochs whose test loss is
    strictly below every earlier epoch's test loss (the first epoch always
    qualifies, since the best-so-far starts as None), a per-epoch checkpoint is
    saved at every epoch, and on the literal loss sequence [0.5, 0.3, 0.4] the
    best checkpoint is saved at epochs 0 and 1 and not at epoch 2. -/
theorem best_checkpoint_policy :
    trainSaves [5/10, 3/10, 4/10] none = [(true, true), (true, true), (false, true)] ∧
    (∀ (ls : List ℚ) (i : ℕ),
      ((trainSaves ls none).getD i (false, false)).1 = true ↔
        (i < ls.length ∧ ∀ j, j < i → ls.getD i 0 < ls.getD j 0)) ∧
    (∀ ls : List ℚ, ∀ p ∈ trainSaves ls none, p.2 = true) := by
  refine ⟨by norm_num [trainSaves], trainSaves_best_spec, ?_⟩
  intro ls p hp
  exact trainSaves_epoch_always ls none p hp

/-! ## Correspondence score rows (model.py, SVDHead.forward, lines 1119-1131)

    Plain mode: scores = torch.softmax(temperature * scores, dim=2), i.e. each
    row is exp-normalized after scaling by the temperature.  The exponential is
    abstracted by a strictly positive kernel f, which is the only property of
    exp the claims depend on.  Relaxation mode: F.gumbel_softmax(scores,
    tau=temperature, hard=True) returns, per row, the one-hot vector at the
    argmax of the noise-perturbed temperature-scaled logits (the straight
    through estimator's forward value). -/

/-- Row softmax with the positive kernel f in place of exp. -/
def softmaxWith (f : ℚ → ℚ) (row : List ℚ) : List ℚ :=
  row.map (fun x => f x / (row.map f).sum)

/-- Plain-softmax correspondence scores: each logit row is scaled by the
    temperature and exp-normalized. -/
def scoresSoftmaxMode (f : ℚ → ℚ) (temp : ℚ) (logits : List (List ℚ)) :
    List (List ℚ) :=
  logits.map (fun row => softmaxWith f (row.map (fun x => temp * x)))

/-- Index of the (first) largest entry of a rational list. -/
def argmaxIdx : List ℚ → ℕ
  | [] => 0
  | x :: t =>
    if t.getD (argmaxIdx t) 0 ≤ x ∨ t = [] then 0 else argmaxIdx t + 1

/-- One-hot row of length n with the unit at position i. -/
def oneHot (n i : ℕ) : List ℚ :=
  (List.range n).map (fun j => if j = i then 1 else 0)

/-- Forward value of F.gumbel_softmax(·, tau, hard=True) on one row: the
    one-hot vector at the argmax of the noise-perturbed scaled logits. -/
def gumbelHardRow (tau : ℚ) (g row : List ℚ) : List ℚ :=
  oneHot row.length (argmaxIdx (List.zipWith (fun x y => (x + y) / tau) row g))

/-- Hard discrete-relaxation correspondence scores, one noise row per logit
    row. -/
def scoresGumbelMode (tau : ℚ) (noise logits : List (List ℚ)) :
    List (List ℚ) :=
  (logits.zip noise).map (fun p => gumbelHardRow tau p.2 p.1)

theorem list_sum_map_div (l : List ℚ) (f : ℚ → ℚ) (c : ℚ) :
    (l.map (fun x => f x / c)).sum = (l.map f).sum / c := by
  induction l with
  | nil => simp
  | cons a t ih => simp [ih, add_div]

theorem list_sum_pos {l : List ℚ} (h : ∀ x ∈ l, 0 < x) (hne : l ≠ []) :
    0 < l.sum := by
  cases l with
  | nil => exact absurd rfl hne
  | cons a t =>
    have ha := h a (List.mem_cons_self a t)
    have ht : 0 ≤ t.sum :=
      List.sum_nonneg (fun x hx => le_of_lt (h x (List.mem_cons_of_mem a hx)))
    simp only [List.sum_cons]
    linarith

theorem softmaxWith_sum (f : ℚ → ℚ) (hf : ∀ x, 0 < f x) (row : List ℚ)
    (hne : row ≠ []) : (softmaxWith f row).sum = 1 := by
  unfold softmaxWith
  rw [list_sum_map_div]
  have hpos : 0 < (row.map f).sum := by
    apply list_sum_pos
    · intro x hx
      rcases List.mem_map.mp hx with ⟨y, _, hy⟩
      rw [← hy]
      exact hf y
    · simpa using hne
  exact div_self (ne_of_gt hpos)

theorem softmaxWith_nonneg (f : ℚ → ℚ) (hf : ∀ x, 0 < f x) (row : List ℚ) :
    ∀ x ∈ softmaxWith f row, 0 ≤ x := by
  intro x hx
  rcases List.mem_map.mp hx with ⟨y, _, hy⟩
  have hnum : 0 ≤ f y := le_of_lt (hf y)
  have hden : 0 ≤ (row.map f).sum :=
    List.sum_nonneg (fun z hz => by
      rcases List.mem_map.mp hz with ⟨w, _, hw⟩
      rw [← hw]
      exact le_of_lt (hf w))
  rw [← hy]
  exact div_nonneg hnum hden

theorem argmaxIdx_lt (l : List ℚ) (hne : l ≠ []) : argmaxIdx l < l.length := by
  induction l with
  | nil => exact absurd rfl hne
  | cons x t ih =>
    by_cases h : t.getD (argmaxIdx t) 0 ≤ x ∨ t = []
    · rw [argmaxIdx, if_pos h]
      simp only [List.length_cons]
      omega
    · rw [argmaxIdx, if_neg h]
      push_neg at h
      have := ih h.2
      simp only [List.length_cons]
      omega

theorem oneHot_sum (n i : ℕ) (h : i < n) : (oneHot n i).sum = 1 := by
  induction n with
  | zero => omega
  | succ m ih =>
    unfold oneHot
    rw [List.range_succ, List.map_append, List.sum_append]
    by_cases hc : i < m
    · have hs : (oneHot m i).sum = 1 := ih hc
      unfold oneHot at hs
      rw [hs]
      have hmi : m ≠ i := by omega
      simp [hmi]
    · have him : i = m := by omega
      have hzero : ((List.range m).map (fun j => if j = i then (1:ℚ) else 0)).sum = 0 := by
        apply List.sum_eq_zero
        intro x hx
        rcases List.mem_map.mp hx with ⟨j, hj, hjx⟩
        have hjm : j < m := List.mem_range.mp hj
        rw [← hjx, if_neg (by omega)]
      rw [hzero]
      simp [him]

theorem oneHot_nonneg (n i : ℕ) : ∀ x ∈ oneHot n i, 0 ≤ x := by
  intro x hx
  rcases List.mem_map.mp hx with ⟨j, _, hj⟩
  rw [← hj]
  split <;> norm_num

theorem gumbelHardRow_sum (tau : ℚ) (g row : List ℚ) (hne : row ≠ []) :
    (gumbelHardRow tau g row).sum = 1 := by
  unfold gumbelHardRow
  apply oneHot_sum
  rcases eq_or_ne (List.zipWith (fun x y => (x + y) / tau) row g) [] with hz | hz
  · rw [hz]
    simp only [argmaxIdx]
    exact List.length_pos.mpr hne
  · have hlt := argmaxIdx_lt _ hz
    have hle : (List.zipWith (fun x y => (x + y) / tau) row g).length ≤ row.length := by
      rw [List.length_zipWith]
      exact min_le_left _ _
    omega

theorem gumbelHardRow_nonneg (tau : ℚ) (g row : List ℚ) :
    ∀ x ∈ gumbelHardRow tau g row, 0 ≤ x := by
  unfold gumbelHardRow
  exact oneHot_nonneg _ _

/-- C8: every row of the correspondence score matrix is a distribution — it
    sums to 1 with non-negative entries — in the plain-softmax mode and in the
    hard discrete-relaxation (gumbel) mode alike, for every batch size, point
    count, temperature and noise draw (f abstracts the strictly positive
    exponential kernel of torch.softmax). -/
theorem scores_rows_distribution (f : ℚ → ℚ) (temp tau : ℚ)
    (logits noise : List (List ℚ))
    (hf : ∀ x, 0 < f x) (hne : ∀ row ∈ logits, row ≠ []) :
    (∀ row ∈ scoresSoftmaxMode f temp logits, row.sum = 1 ∧ ∀ x ∈ row, 0 ≤ x) ∧
    (∀ row ∈ scoresGumbelMode tau noise logits, row.sum = 1 ∧ ∀ x ∈ row, 0 ≤ x) := by
  constructor
  · intro row hrow
    rcases List.mem_map.mp hrow with ⟨r0, hr0, hr⟩
    have hr0ne : r0.map (fun x => temp * x) ≠ [] := by
      simpa using hne r0 hr0
    rw [← hr]
    exact ⟨softmaxWith_sum f hf _ hr0ne, softmaxWith_nonneg f hf _⟩
  · intro row hrow
    rcases List.mem_map.mp hrow with ⟨p, hp, hr⟩
    rcases p with ⟨a, b⟩
    have hmem := List.of_mem_zip hp
    have hane : a ≠ [] := hne a hmem.1
    rw [← hr]
    exact ⟨gumbelHardRow_sum tau b a hane, gumbelHardRow_nonneg tau b a⟩

/-- Witness for C8 at the one-example, one-point batch with the constant
    positive kernel. -/
theorem scores_rows_distribution_witness :
    (∀ x : ℚ, 0 < (fun _ : ℚ => (1:ℚ)) x) ∧
    (∀ row ∈ ([[0]] : List (List ℚ)), row ≠ []) ∧
    ((∀ row ∈ scoresSoftmaxMode (fun _ => 1) 1 [[0]], row.sum = 1 ∧ ∀ x ∈ row, 0 ≤ x) ∧
     (∀ row ∈ scoresGumbelMode 1 [[0]] [[0]], row.sum = 1 ∧ ∀ x ∈ row, 0 ≤ x)) :=
  ⟨fun _ => one_pos, by simp,
   scores_rows_distribution (fun _ => 1) 1 1 [[0]] [[0]] (fun _ => one_pos) (by simp)⟩

/-! ## k-nearest-neighbour construction (model.py, knn lines 45-51 and
    get_graph_feature lines 54-57)

    distance = -xx - inner - xxᵀ with inner = -2·xᵀx, i.e. the negated squared
    Euclidean distance; idx = distance.topk(k=k, dim=-1)[1] takes, per point,
    the indices of the k largest scores.  torch.topk demands k ≤ N and raises
    a runtime error otherwise — modelled by an Option result; ties are broken
    stably by original index. -/

/-- Squared L2 norm of a 3-vector. -/
def sqNormQ (p : Vec3) : ℚ := ∑ i, p i ^ 2

/-- Dot product of two 3-vectors. -/
def dotQ (p q : Vec3) : ℚ := ∑ i, p i * q i

/-- Entry (i, j) of the knn score matrix: -xx - inner - xxᵀ from the source,
    with inner = -2·xᵀx. -/
def knnScore (pts : List Vec3) (i j : ℕ) : ℚ :=
  -sqNormQ (pts.getD i 0) - (-2 * dotQ (pts.getD i 0) (pts.getD j 0)) -
    sqNormQ (pts.getD j 0)

/-- Comparison used to rank candidate neighbours of point i: larger score
    first. -/
def knnLe (pts : List Vec3) (i a b : ℕ) : Bool :=
  decide (knnScore pts i b ≤ knnScore pts i a)

/-- Neighbour row of point i: all candidate indices sorted by descending
    score, truncated to k. -/
def knnRow (pts : List Vec3) (k i : ℕ) : List ℕ :=
  ((List.range pts.length).mergeSort (knnLe pts i)).take k

/-- model.py knn: per-point top-k neighbour indices; none when k exceeds the
    number of points (torch.topk raises in that case — there is no cap). -/
def knn (pts : List Vec3) (k : ℕ) : Option (List (List ℕ)) :=
  if k ≤ pts.length then
    some ((List.range pts.length).map (fun i => knnRow pts k i))
  else none

theorem knnScore_eq_neg_sq (pts : List Vec3) (i j : ℕ) :
    knnScore pts i j = -sqNormQ (fun c => pts.getD i 0 c - pts.getD j 0 c) := by
  unfold knnScore sqNormQ dotQ
  rw [Fin.sum_univ_three, Fin.sum_univ_three, Fin.sum_univ_three, Fin.sum_univ_three]
  ring

theorem knnScore_self (pts : List Vec3) (i : ℕ) : knnScore pts i i = 0 := by
  rw [knnScore_eq_neg_sq]
  simp [sqNormQ]

theorem knnScore_neg (pts : List Vec3) (i j : ℕ)
    (hij : pts.getD i 0 ≠ pts.getD j 0) : knnScore pts i j < 0 := by
  rw [knnScore_eq_neg_sq]
  obtain ⟨c, hc⟩ : ∃ c, pts.getD i 0 c - pts.getD j 0 c ≠ 0 := by
    by_contra hall
    push_neg at hall
    apply hij
    funext c
    have := hall c
    linarith
  have hpos : 0 < sqNormQ (fun c => pts.getD i 0 c - pts.getD j 0 c) := by
    unfold sqNormQ
    apply Finset.sum_pos'
    · intro x _
      positivity
    · refine ⟨c, Finset.mem_univ c, ?_⟩
      have h2 : (pts.getD i 0 c - pts.getD j 0 c) ^ 2 ≠ 0 := pow_ne_zero 2 hc
      exact lt_of_le_of_ne (sq_nonneg _) (Ne.symm h2)
  linarith

theorem knnLe_trans (pts : List Vec3) (i : ℕ) :
    ∀ a b c, knnLe pts i a b = true → knnLe pts i b c = true →
      knnLe pts i a c = true := by
  intro a b c h1 h2
  simp only [knnLe, decide_eq_true_eq] at *
  exact le_trans h2 h1

theorem knnLe_total (pts : List Vec3) (i : ℕ) :
    ∀ a b, (knnLe pts i a b || knnLe pts i b a) = true := by
  intro a b
  simp only [knnLe, Bool.or_eq_true, decide_eq_true_eq]
  exact le_total _ _

theorem self_mem_knnRow (pts : List Vec3) (k i : ℕ) (h1 : 1 ≤ k)
    (hi : i < pts.length)
    (hmax : ∀ j, j < pts.length → j ≠ i → knnScore pts i j < knnScore pts i i) :
    i ∈ knnRow pts k i := by
  unfold knnRow
  have hsorted := List.sorted_mergeSort (knnLe_trans pts i) (knnLe_total pts i)
    (List.range pts.length)
  cases hl : (List.range pts.length).mergeSort (knnLe pts i) with
  | nil =>
    have hmem : i ∈ (List.range pts.length).mergeSort (knnLe pts i) :=
      (List.mergeSort_perm _ _).mem_iff.mpr (List.mem_range.mpr hi)
    rw [hl] at hmem
    simp at hmem
  | cons a t =>
    have hmem : i ∈ a :: t := by
      rw [← hl]
      exact (List.mergeSort_perm _ _).mem_iff.mpr (List.mem_range.mpr hi)
    have ha : a = i := by
      by_contra hne
      have hit : i ∈ t := by
        rcases List.mem_cons.mp hmem with h | h
        · exact absurd h.symm hne
        · exact h
      have hs := hsorted
      rw [hl] at hs
      have hle : knnLe pts i a i = true := (List.pairwise_cons.mp hs).1 i hit
      simp only [knnLe, decide_eq_true_eq] at hle
      have hamem : a ∈ List.range pts.length := by
        have hccc : a ∈ a :: t := List.mem_cons_self a t
        rw [← hl] at hccc
        exact (List.mergeSort_perm _ _).mem_iff.mp hccc
      have haN : a < pts.length := List.mem_range.mp hamem
      have := hmax a haN hne
      linarith
    rw [ha]
    cases k with
    | zero => omega
    | succ m =>
      rw [List.take_succ_cons]
      exact List.mem_cons_self i _

theorem knnRow_length (pts : List Vec3) (k i : ℕ) (hk : k ≤ pts.length) :
    (knnRow pts k i).length = k := by
  unfold knnRow
  rw [List.length_take, List.length_mergeSort, List.length_range]
  exact min_eq_left hk

/-- C9 (amended): model.py knn requires k ≤ N (torch.topk raises otherwise —
    there is no cap to N); when k ≤ N it returns, for each of the N points, the
    k candidate indices ranked by the score -xx - inner - xxᵀ, which equals the
    negated squared Euclidean distance, and for pairwise-distinct points every
    point appears among its own neighbours (its self-score 0 is the strict
    maximum). -/
theorem knn_spec (pts : List Vec3) (k : ℕ) (hk : k ≤ pts.length) (h1 : 1 ≤ k)
    (hd : pts.Nodup) :
    ∃ rows, knn pts k = some rows ∧ rows.length = pts.length ∧
      (∀ r ∈ rows, r.length = k) ∧
      (∀ i, i < pts.length → i ∈ rows.getD i []) ∧
      (∀ i j, knnScore pts i j =
        -sqNormQ (fun c => pts.getD i 0 c - pts.getD j 0 c)) := by
  refine ⟨(List.range pts.length).map (fun i => knnRow pts k i), ?_, ?_, ?_, ?_, ?_⟩
  · unfold knn
    rw [if_pos hk]
  · simp
  · intro r hr
    rcases List.mem_map.mp hr with ⟨i, _, hi⟩
    rw [← hi]
    exact knnRow_length pts k i hk
  · intro i hi
    have hgd : ((List.range pts.length).map (fun i => knnRow pts k i)).getD i [] =
        knnRow pts k i := by
      rw [List.getD_eq_getElem _ _ (by simpa using hi), List.getElem_map,
        List.getElem_range]
    rw [hgd]
    apply self_mem_knnRow pts k i h1 hi
    intro j hj hji
    rw [knnScore_self]
    apply knnScore_neg
    intro hc
    rw [List.getD_eq_getElem pts 0 hi, List.getD_eq_getElem pts 0 hj] at hc
    have hg : pts.get ⟨i, hi⟩ = pts.get ⟨j, hj⟩ := by
      simpa [List.get_eq_getElem] using hc
    have hfin := hd.get_inj_iff.mp hg
    have hij2 : i = j := by simpa using hfin
    exact hji hij2.symm
  · intro i j
    exact knnScore_eq_neg_sq pts i j

/-- The regular 5-point grid of the claim. -/
def grid5 : List Vec3 := [![0,0,0], ![1,0,0], ![2,0,0], ![3,0,0], ![4,0,0]]

/-- C9 counterexample: on the 5-point grid with the requested k = 20 the
    construction does not return a capped 5-neighbour answer — torch.topk with
    k larger than the point count fails, modelled as none. -/
theorem knn_cap_cex : grid5.length = 5 ∧ (5:ℕ) < 20 ∧ knn grid5 20 = none := by
  refine ⟨by simp [grid5], by norm_num, ?_⟩
  unfold knn
  rw [if_neg (by norm_num [grid5])]

/-- Two distinct concrete points for the C9 witness. -/
def twoPts : List Vec3 := [![0,0,0], ![1,0,0]]

/-- Witness for C9 (amended) at the 2-point cloud with k = 1. -/
theorem knn_spec_witness :
    ((1:ℕ) ≤ twoPts.length ∧ (1:ℕ) ≤ 1 ∧ twoPts.Nodup) ∧
    (∃ rows, knn twoPts 1 = some rows ∧ rows.length = twoPts.length ∧
      (∀ r ∈ rows, r.length = 1) ∧
      (∀ i, i < twoPts.length → i ∈ rows.getD i []) ∧
      (∀ i j, knnScore twoPts i j =
        -sqNormQ (fun c => twoPts.getD i 0 c - twoPts.getD j 0 c))) :=
  ⟨⟨by norm_num [twoPts], le_refl 1, by decide⟩,
   knn_spec twoPts 1 (by norm_num [twoPts]) (le_refl 1) (by decide)⟩

/-! ## ACPNet.predict_embedding with identity attention (model.py, Identity
    lines 312-317, ACPNet.__init__ lines 419-424, predict_embedding lines
    446-461)

    Identity.forward(*input) returns its input tuple unchanged.  In
    predict_embedding the attention output is added residually to the backbone
    embeddings, so an identity attention doubles them; the raw clouds are
    passed to the keypoint stage untouched.  The backbone, keypoint selector
    and temperature network are abstracted as function parameters; embeddings
    are lists of per-point feature vectors. -/

/-- Per-point embeddings of one cloud: one rational feature vector per point. -/
abbrev Emb := List (List ℚ)

/-- Pointwise sum of two embeddings (the residual add of predict_embedding). -/
def addEmb (a b : Emb) : Emb := List.zipWith (List.zipWith (· + ·)) a b

/-- Entrywise scaling of an embedding. -/
def scaleEmb (c : ℚ) (e : Emb) : Emb := e.map (fun v => v.map (fun x => c * x))

/-- Identity.forward as the attention module: returns the embedding pair
    unchanged. -/
def identityAttention (a b : Emb) : Emb × Emb := (a, b)

/-- Identity.forward in the keypoint slot (the configuration where
    n_keypoints equals the working point count). -/
def identityKeypoint (s t : List Vec3) (a b : Emb) :
    List Vec3 × List Vec3 × Emb × Emb := (s, t, a, b)

/-- ACPNet.predict_embedding: embed both clouds, run attention, add its output
    residually to each embedding, run the keypoint stage, then the temperature
    network; returns (src, tgt, src_embedding, tgt_embedding, temperature,
    feature_disparity). -/
def predict_embedding (embNN : List Vec3 → Emb)
    (attention : Emb → Emb → Emb × Emb)
    (keypoint : List Vec3 → List Vec3 → Emb → Emb →
      List Vec3 × List Vec3 × Emb × Emb)
    (tempNet : Emb → Emb → ℚ × List ℚ)
    (src tgt : List Vec3) :
    List Vec3 × List Vec3 × Emb × Emb × ℚ × List ℚ :=
  let se := embNN src
  let te := embNN tgt
  let p := attention se te
  let se2 := addEmb se p.1
  let te2 := addEmb te p.2
  let kp := keypoint src tgt se2 te2
  let td := tempNet kp.2.2.1 kp.2.2.2
  (kp.1, kp.2.1, kp.2.2.1, kp.2.2.2, td.1, td.2)

theorem addEmb_self (e : Emb) : addEmb e e = scaleEmb 2 e := by
  unfold addEmb scaleEmb
  rw [List.zipWith_same]
  apply List.map_congr_left
  intro v _
  rw [List.zipWith_same]
  apply List.map_congr_left
  intro x _
  ring

/-- C10: with the attention module configured as the identity passthrough, the
    keypoint stage receives the raw clouds unchanged together with exactly
    twice the backbone embeddings (the passthrough output is residually added
    to the embeddings it equals); in particular with an identity keypoint
    stage, predict_embedding returns the original clouds and the doubled
    backbone embeddings. -/
theorem identity_attention_doubles (embNN : List Vec3 → Emb)
    (tempNet : Emb → Emb → ℚ × List ℚ) (src tgt : List Vec3) :
    (∀ keypoint, predict_embedding embNN identityAttention keypoint tempNet src tgt =
      (let kp := keypoint src tgt (scaleEmb 2 (embNN src)) (scaleEmb 2 (embNN tgt))
       (kp.1, kp.2.1, kp.2.2.1, kp.2.2.2,
        (tempNet kp.2.2.1 kp.2.2.2).1, (tempNet kp.2.2.1 kp.2.2.2).2))) ∧
    predict_embedding embNN identityAttention identityKeypoint tempNet src tgt =
      (src, tgt, scaleEmb 2 (embNN src), scaleEmb 2 (embNN tgt),
       (tempNet (scaleEmb 2 (embNN src)) (scaleEmb 2 (embNN tgt))).1,
       (tempNet (scaleEmb 2 (embNN src)) (scaleEmb 2 (embNN tgt))).2) := by
  constructor
  · intro keypoint
    simp [predict_embedding, identityAttention, addEmb_self]
  · simp [predict_embedding, identityAttention, identityKeypoint, addEmb_self]

/-! ## Experiment-directory initialization (main.py, _init_, lines 19-28)

    _init_ creates checkpoints/, checkpoints/<exp>/ and checkpoints/<exp>/models,
    then runs three shell copies through os.system, whose exit status is
    ignored (copy failures are non-fatal):
      cp main.py  checkpoints/<exp>/main.py.backup
      cp model .py checkpoints/<exp>/model.py.backup   (note the stray space)
      cp data.py  checkpoints/<exp>/data.py.backup
    The filesystem is modelled as the list of existing paths.  cp with one
    existing source creates the destination; cp with several sources requires
    an existing directory target — here the target is a fresh file path, so
    the command fails and creates nothing. -/

/-- Shell cp as invoked through os.system, on a path-list filesystem. -/
def cpCmd (fs : List String) (srcs : List String) (dst : String) : List String :=
  match srcs with
  | [s] => if s ∈ fs then dst :: fs else fs
  | _ => fs

/-- main.py _init_: directory creation followed by the three provenance
    copies, the second of which names its sources "model" and ".py". -/
def initExp (expName : String) (fs : List String) : List String :=
  let fs1 := ("checkpoints/" ++ expName ++ "/models") ::
    ("checkpoints/" ++ expName) :: "checkpoints" :: fs
  let fs2 := cpCmd fs1 ["main.py"] ("checkpoints/" ++ expName ++ "/main.py.backup")
  let fs3 := cpCmd fs2 ["model", ".py"] ("checkpoints/" ++ expName ++ "/model.py.backup")
  cpCmd fs3 ["data.py"] ("checkpoints/" ++ expName ++ "/data.py.backup")

/-- C5: in a working directory that does contain main.py, model.py and
    data.py, _init_ produces main.py.backup and data.py.backup but never
    model.py.backup — the command `cp model .py …` (stray space splitting the
    file name) does not name an existing file, so the model provenance copy
    always fails; the code contradicts the intended backup named by its own
    target path. -/
theorem init_backup_bug :
    "model.py" ∈ ["main.py", "model.py", "data.py"] ∧
    "checkpoints/exp/main.py.backup" ∈ initExp "exp" ["main.py", "model.py", "data.py"] ∧
    "checkpoints/exp/data.py.backup" ∈ initExp "exp" ["main.py", "model.py", "data.py"] ∧
    "checkpoints/exp/model.py.backup" ∉ initExp "exp" ["main.py", "model.py", "data.py"] := by
  refine ⟨by decide, ?_, ?_, ?_⟩ <;> decide
